import Mathlib

/-!
Verification development for the day01 calibration-value program
(`src/day01/src/main.rs`).

The program builds two tries from the fixed digit-word vocabularies
(`FIGURES` forward, `R_FIGURES` reversed), scans each line of the input
document character by character keeping a frontier of in-progress trie
matches (`find_digit`), combines the first forward match and the first
reverse match into a two-digit score (`parse_cal_doc_line`), and sums the
scores over all lines (`parse_cal_doc`).

Modelling notes:
  * `HashMap<char, Node>` is modelled as an association list
    `List (Char × Node)` with unique keys.  The map is only ever used
    through `contains_key` / `get` / `entry().or_insert_with`, never
    iterated, so the list order is irrelevant to lookups; insertion
    appends new keys and updates existing keys in place, which is a
    deterministic refinement of the hash map.
  * Rust `char` is Lean `Char` (both are Unicode scalar values).
  * `u8` / `u32` values are modelled as `Nat`.  The only arithmetic is
    `first * 10 + last` with `first, last ≤ 9` and the document sum; no
    claim involves quantities anywhere near `2^32`, so `u32` wraparound
    is not modelled.
  * Rust `char::is_numeric` is true exactly for the Unicode general
    categories Nd, Nl and No.  `is_numeric` below is exact on the
    Latin-1 range (below U+0100): there the category-N characters are
    the ASCII digits `0`-`9` (Nd) and the six characters `¹ ² ³ ¼ ½ ¾`
    (No).  Characters at U+0100 and above are modelled as non-numeric
    (an under-approximation of the full Unicode table; every character
    appearing in the vocabularies, the fixtures and the counterexamples
    below lies in the Latin-1 range, where the model is exact, and the
    one universally quantified statement whose truth would be affected by
    characters above Latin-1 — the amended C4 — carries an explicit
    Latin-1 hypothesis restricting it to the exact range).
-/

/-- Trie node: `struct Node { leaf: Option<u8>, children: HashMap<char, Node> }`. -/
inductive Node : Type where
  | mk (leaf : Option Nat) (children : List (Char × Node))

/-- Projection for the `leaf` field. -/
def Node.leaf : Node → Option Nat
  | .mk l _ => l

/-- Projection for the `children` field. -/
def Node.children : Node → List (Char × Node)
  | .mk _ ch => ch

/-- Association-list lookup, modelling `HashMap::get(&c)`. -/
def assoc_get : List (Char × Node) → Char → Option Node
  | [], _ => none
  | (k, n) :: rest, c => if k = c then some n else assoc_get rest c

/-- Association-list in-place update of an existing key. -/
def assoc_set : List (Char × Node) → Char → Node → List (Char × Node)
  | [], _, _ => []
  | (k, n) :: rest, c, n' => if k = c then (k, n') :: rest else (k, n) :: assoc_set rest c n'

/-- Modelling `HashMap::contains_key(&c)`. -/
def contains_key (children : List (Char × Node)) (c : Char) : Bool :=
  (assoc_get children c).isSome

/-- Lookup of a child node: `node.children.get(&c)`. -/
def find_child (n : Node) (c : Char) : Option Node :=
  assoc_get n.children c

/-- Rust `Node::add_path(figure, value, node)`: walk the characters of
`figure` from `node`, creating missing children via
`entry(c).or_insert_with(|| Node::new(None))`, and set the `leaf` field of the final
node to `Some(value)`.  The iterative walk of the source is realised
recursively on the remaining characters. -/
def add_path : List Char → Nat → Node → Node
  | [], value, .mk _ children => .mk (some value) children
  | c :: cs, value, .mk leaf children =>
      match assoc_get children c with
      | some child => .mk leaf (assoc_set children c (add_path cs value child))
      | none => .mk leaf (children ++ [(c, add_path cs value (.mk none []))])

/-- Rust `char::to_digit(10)`: `Some` of the numeric value for the ASCII
digits `0`-`9`, `None` for every other character. -/
def to_digit_10 (c : Char) : Option Nat :=
  if c.isDigit then some (c.toNat - 48) else none

/-- Rust `char::is_numeric` (Unicode general category Nd, Nl or No),
modelled exactly on the Latin-1 range and as `false` above U+0100; see
the module docstring. -/
def is_numeric (c : Char) : Bool :=
  c.isDigit || c = '¹' || c = '²' || c = '³' || c = '¼' || c = '½' || c = '¾'

/-- Advance step of the frontier for one character, the inner `for node in
nodes` loop of `find_digit`: each frontier node with a child for `c`
contributes that child to the new frontier, except that a terminal child
causes an immediate return (`Except.error`) of its leaf value. -/
def advance_frontier (c : Char) : List Node → Except Nat (List Node)
  | [] => .ok []
  | n :: ns =>
      match find_child n c with
      | some new_node =>
          match new_node.leaf with
          | some v => .error v
          | none => (advance_frontier c ns).map (fun l => new_node :: l)
      | none => advance_frontier c ns

/-- The character loop of Rust `find_digit`, with the frontier (`nodes`)
explicit.  For each character: a numeric character returns
`to_digit(10).unwrap_or(0)` immediately; otherwise the frontier advances
(possibly returning the value of a completed word), and then a fresh match is
started from the trie root if the root has a child for the character. -/
def find_digit_aux (root : Node) : List Char → List Node → Option Nat
  | [], _ => none
  | c :: cs, nodes =>
      if is_numeric c then some ((to_digit_10 c).getD 0)
      else
        match advance_frontier c nodes with
        | .error v => some v
        | .ok new_nodes =>
            match assoc_get root.children c with
            | some child => find_digit_aux root cs (new_nodes ++ [child])
            | none => find_digit_aux root cs new_nodes

/-- Rust `find_digit(cal_doc_line_chars, tree)`: scan the characters with
an initially empty frontier. -/
def find_digit (chars : List Char) (root : Node) : Option Nat :=
  find_digit_aux root chars []

/-- Rust `parse_cal_doc_line`: first digit of the forward scan; on `None`
return 0 without scanning backwards; otherwise combine with the first
digit of the reverse scan (defaulting to 0) as `first * 10 + last`. -/
def parse_cal_doc_line (cal_doc_line : List Char) (tree rtree : Node) : Nat :=
  let first := find_digit cal_doc_line tree
  if first.isNone then 0
  else
    let last := find_digit cal_doc_line.reverse rtree
    first.getD 0 * 10 + last.getD 0

/-- The forward vocabulary `FIGURES`. -/
def FIGURES : List (List Char × Nat) :=
  [("one".toList, 1), ("two".toList, 2), ("three".toList, 3), ("four".toList, 4),
   ("five".toList, 5), ("six".toList, 6), ("seven".toList, 7), ("eight".toList, 8),
   ("nine".toList, 9)]

/-- The reversed vocabulary `R_FIGURES`. -/
def R_FIGURES : List (List Char × Nat) :=
  [("eno".toList, 1), ("owt".toList, 2), ("eerht".toList, 3), ("ruof".toList, 4),
   ("evif".toList, 5), ("xis".toList, 6), ("neves".toList, 7), ("thgie".toList, 8),
   ("enin".toList, 9)]

/-- Building a trie from a vocabulary: a fresh root, then
`vocab.iter().for_each(|(fig, val)| Node::add_path(fig, *val, &mut tree))`. -/
def build_trie (vocab : List (List Char × Nat)) : Node :=
  vocab.foldl (fun t p => add_path p.1 p.2 t) (.mk none [])

/-- The forward trie (the `tree` of `parse_cal_doc`, also the test helper
`get_tree`). -/
def get_tree : Node := build_trie FIGURES

/-- The reverse trie (the `rtree` of `parse_cal_doc`, also the test helper
`get_rtree`). -/
def get_rtree : Node := build_trie R_FIGURES

/-- Rust `str::lines`: split on `\n`; a trailing `\r` on each piece is
stripped; a final line ending does not produce a trailing empty line.
This helper splits on the newline characters, keeping a (possibly empty)
final piece. -/
def split_newlines : List Char → List (List Char)
  | [] => [[]]
  | c :: cs =>
      if c = '\n' then [] :: split_newlines cs
      else
        match split_newlines cs with
        | l :: ls => (c :: l) :: ls
        | [] => [[c]]

/-- Drop a single trailing carriage return.  `str::lines` applies this to
every piece that was terminated by a line feed, so that "\r\n" line
endings are recognised. -/
def strip_cr (l : List Char) : List Char :=
  match l.reverse with
  | '\r' :: rest => rest.reverse
  | _ => l

/-- Rust `str::lines` over the whole document: split on `\n`; every piece
that was terminated by `\n` has one trailing `\r` stripped; the final
piece, which was not terminated by `\n`, keeps any trailing `\r` (the
std example: "baz\r" stays "baz\r") and is dropped when empty (an
optional final line ending produces no extra line). -/
def rust_lines (s : List Char) : List (List Char) :=
  match (split_newlines s).reverse with
  | [] => []
  | last :: rev_init =>
      let init := rev_init.reverse.map strip_cr
      if last = [] then init else init ++ [last]

/-- Rust `parse_cal_doc`: build the two tries from the fixed vocabularies,
score every line, and sum. -/
def parse_cal_doc (cal_doc : List Char) : Nat :=
  let tree := build_trie FIGURES
  let rtree := build_trie R_FIGURES
  ((rust_lines cal_doc).map (fun line => parse_cal_doc_line line tree rtree)).sum

/-!  Panic-tracking variants.  The source contains exactly two potential
panic sites, the two `.unwrap()` calls on `children.get(&c)` (each guarded
by a preceding `contains_key`).  The `_checked` functions below mirror the
source with those `.unwrap()` calls modelled as fallible: an overall result
of `none` means a panic.  Proving `_checked = some ∘ plain` shows the
guards make the panic branches unreachable (claim C9). -/

/-- Frontier advance with the `node.children.get(&c).unwrap()` panic site
explicit: `none` models a panic of the unguarded `unwrap`. -/
def advance_frontier_checked (c : Char) : List Node → Option (Except Nat (List Node))
  | [] => some (.ok [])
  | n :: ns =>
      if contains_key n.children c then
        match find_child n c with
        | none => none
        | some new_node =>
            if new_node.leaf.isSome then some (.error (new_node.leaf.getD 0))
            else (advance_frontier_checked c ns).map (Except.map (fun l => new_node :: l))
      else advance_frontier_checked c ns

/-- Character loop of `find_digit` with the `tree.children.get(&c).unwrap()`
panic site explicit. -/
def find_digit_aux_checked (root : Node) : List Char → List Node → Option (Option Nat)
  | [], _ => some none
  | c :: cs, nodes =>
      if is_numeric c then some (some ((to_digit_10 c).getD 0))
      else
        match advance_frontier_checked c nodes with
        | none => none
        | some (.error v) => some (some v)
        | some (.ok new_nodes) =>
            if contains_key root.children c then
              match assoc_get root.children c with
              | none => none
              | some child => find_digit_aux_checked root cs (new_nodes ++ [child])
            else find_digit_aux_checked root cs new_nodes

/-- Rust `find_digit` with panic sites explicit. -/
def find_digit_checked (chars : List Char) (root : Node) : Option (Option Nat) :=
  find_digit_aux_checked root chars []

/-- Rust `parse_cal_doc_line` with panic sites explicit. -/
def parse_cal_doc_line_checked (line : List Char) (tree rtree : Node) : Option Nat :=
  match find_digit_checked line tree with
  | none => none
  | some first =>
      if first.isNone then some 0
      else
        match find_digit_checked line.reverse rtree with
        | none => none
        | some last => some (first.getD 0 * 10 + last.getD 0)

/-- Sum of the checked line scores, propagating a panic. -/
def sum_lines_checked (tree rtree : Node) : List (List Char) → Option Nat
  | [] => some 0
  | l :: ls =>
      match parse_cal_doc_line_checked l tree rtree, sum_lines_checked tree rtree ls with
      | some a, some b => some (a + b)
      | _, _ => none

/-- Rust `parse_cal_doc` with panic sites explicit. -/
def parse_cal_doc_checked (cal_doc : List Char) : Option Nat :=
  sum_lines_checked (build_trie FIGURES) (build_trie R_FIGURES) (rust_lines cal_doc)

/-!  Trie paths and the words stored in a trie. -/

/-- Follow a character string down from a node. -/
def path_to (t : Node) : List Char → Option Node
  | [] => some t
  | c :: cs =>
      match find_child t c with
      | some child => path_to child cs
      | none => none

mutual

/-- All (string, value) pairs stored in the trie: the strings leading from
this node to a node with a terminal value. -/
def words_of : Node → List (List Char × Nat)
  | .mk leaf children =>
      (match leaf with
       | some v => [([], v)]
       | none => []) ++ words_of_children children

/-- Words of a list of labelled subtries, each extended by its label. -/
def words_of_children : List (Char × Node) → List (List Char × Nat)
  | [] => []
  | (c, t) :: rest => (words_of t).map (fun q => (c :: q.1, q.2)) ++ words_of_children rest

end

/-!  Contiguous-substring helpers used to state and prove the scan
characterisation. -/

/-- Propositional form: `w` occurs contiguously inside `cs`. -/
def occurs_in (w cs : List Char) : Prop := ∃ p q, cs = p ++ w ++ q

/-- Propositional form: `s` is a final segment of `l`. -/
def ends_with (l s : List Char) : Prop := ∃ p, l = p ++ s

/-- Boolean test: `w` is an initial segment of `cs`. -/
def leads_b : List Char → List Char → Bool
  | [], _ => true
  | _ :: _, [] => false
  | a :: w, c :: cs => a = c && leads_b w cs

/-- Boolean test for `occurs_in`. -/
def occurs_b (w : List Char) : List Char → Bool
  | [] => leads_b w []
  | c :: cs => leads_b w (c :: cs) || occurs_b w cs

/-- Modelled from the spec (§8, "first_literal_digit"): the value of the
first literal ASCII digit character of a line.  This is a spec-side
definition used to state claim C4 against the code. -/
def first_literal_digit (cs : List Char) : Option Nat :=
  (cs.find? Char.isDigit).map (fun c => c.toNat - 48)

/-- Modelled from the spec (§8, "last_literal_digit"): the value of the
last literal ASCII digit character of a line. -/
def last_literal_digit (cs : List Char) : Option Nat :=
  first_literal_digit cs.reverse

/-- Frontier invariant of the scan: every frontier node is reached from
the root by some nonempty final segment of the consumed input `pre`. -/
def frontier_inv (root : Node) (pre : List Char) (f : List Node) : Prop :=
  ∀ n ∈ f, ∃ s, s ≠ [] ∧ ends_with pre s ∧ path_to root s = some n

/-- Check, for a stored word of the forward trie, that its reversal has
length at least two and is stored (terminal) in the reverse trie. -/
def rtree_word_check (p : List Char × Nat) : Bool :=
  match p.1.reverse with
  | c0 :: c1 :: w2 =>
      match path_to get_rtree (c0 :: c1 :: w2) with
      | some m => m.leaf.isSome
      | none => false
  | _ => false

/-- The 18-line fixture document of the test `parse_cal_doc_test`. -/
def cal_doc_fixture : List Char :=
  ("two1nine\neightwothree\nabcone2threexyz\nxtwone3four\n4nineeightseven2\n" ++
   "zoneight234\n7pqrstsixteen\noneight\none\ntwone\neightwo\nnineight\n" ++
   "eighthree\nnineeight\neeeight\noooneeone\n1\neightwothree\n").toList

/-!  Lemmas about the substring helpers. -/

theorem leads_b_iff (w : List Char) : ∀ cs, leads_b w cs = true ↔ ∃ q, cs = w ++ q := by
  induction w with
  | nil =>
      intro cs
      simp [leads_b]
  | cons a w ih =>
      intro cs
      cases cs with
      | nil => simp [leads_b]
      | cons c cs =>
          simp only [leads_b, Bool.and_eq_true, decide_eq_true_eq, ih, List.cons_append,
            List.cons.injEq]
          constructor
          · rintro ⟨rfl, q, rfl⟩
            exact ⟨q, rfl, rfl⟩
          · rintro ⟨q, rfl, rfl⟩
            exact ⟨rfl, q, rfl⟩

theorem occurs_b_iff (w : List Char) : ∀ cs, occurs_b w cs = true ↔ occurs_in w cs := by
  intro cs
  induction cs with
  | nil =>
      simp only [occurs_b, leads_b_iff, occurs_in]
      constructor
      · rintro ⟨q, h⟩
        exact ⟨[], q, by simpa using h⟩
      · rintro ⟨p, q, h⟩
        rcases List.append_eq_nil.mp h.symm with ⟨h1, rfl⟩
        rcases List.append_eq_nil.mp h1 with ⟨rfl, rfl⟩
        exact ⟨[], rfl⟩
  | cons c cs ih =>
      simp only [occurs_b, Bool.or_eq_true, leads_b_iff, ih, occurs_in]
      constructor
      · rintro (⟨q, h⟩ | ⟨p, q, h⟩)
        · exact ⟨[], q, by simpa using h⟩
        · exact ⟨c :: p, q, by simp [h]⟩
      · rintro ⟨p, q, h⟩
        cases p with
        | nil => exact .inl ⟨q, by simpa using h⟩
        | cons a p =>
            simp only [List.cons_append] at h
            injection h with h1 h2
            exact .inr ⟨p, q, h2⟩

theorem occurs_in_reverse {w cs : List Char} (h : occurs_in w cs) :
    occurs_in w.reverse cs.reverse := by
  rcases h with ⟨p, q, rfl⟩
  exact ⟨q.reverse, p.reverse, by simp⟩

theorem ends_with_occurs {pre s rest : List Char} (h : ends_with pre s) :
    occurs_in s (pre ++ rest) := by
  rcases h with ⟨p, rfl⟩
  exact ⟨p, rest, by simp⟩

theorem ends_with_push {pre s : List Char} (c : Char) (h : ends_with pre s) :
    ends_with (pre ++ [c]) (s ++ [c]) := by
  rcases h with ⟨p, rfl⟩
  exact ⟨p, by simp⟩

/-!  Lemmas about the association list. -/

theorem assoc_get_mem {l : List (Char × Node)} {c : Char} {n : Node}
    (h : assoc_get l c = some n) : (c, n) ∈ l := by
  induction l with
  | nil => simp [assoc_get] at h
  | cons p rest ih =>
      obtain ⟨k, m⟩ := p
      by_cases hk : k = c
      · subst hk
        simp only [assoc_get, if_true, reduceIte, Option.some.injEq] at h
        subst h
        exact List.mem_cons_self ..
      · simp only [assoc_get, if_neg hk] at h
        exact List.mem_cons_of_mem _ (ih h)

theorem assoc_set_get_self {l : List (Char × Node)} {c : Char} {x : Node}
    (h : assoc_get l c = some x) : assoc_set l c x = l := by
  induction l with
  | nil => simp [assoc_get] at h
  | cons p rest ih =>
      obtain ⟨k, m⟩ := p
      by_cases hk : k = c
      · subst hk
        simp only [assoc_get, if_true, reduceIte, Option.some.injEq] at h
        subst h
        simp [assoc_set]
      · simp only [assoc_get, if_neg hk] at h
        simp [assoc_set, if_neg hk, ih h]

theorem assoc_get_set {l : List (Char × Node)} {c : Char} {x y : Node}
    (h : assoc_get l c = some x) : assoc_get (assoc_set l c y) c = some y := by
  induction l with
  | nil => simp [assoc_get] at h
  | cons p rest ih =>
      obtain ⟨k, m⟩ := p
      by_cases hk : k = c
      · subst hk
        simp [assoc_set, assoc_get]
      · simp only [assoc_get, if_neg hk] at h
        simp [assoc_set, assoc_get, if_neg hk, ih h]

theorem assoc_set_set {l : List (Char × Node)} {c : Char} {x y : Node} :
    assoc_set (assoc_set l c x) c y = assoc_set l c y := by
  induction l with
  | nil => simp [assoc_set]
  | cons p rest ih =>
      obtain ⟨k, m⟩ := p
      by_cases hk : k = c
      · subst hk
        simp [assoc_set]
      · simp [assoc_set, if_neg hk, ih]

theorem assoc_get_append_none {l : List (Char × Node)} {c : Char} {y : Node}
    (h : assoc_get l c = none) : assoc_get (l ++ [(c, y)]) c = some y := by
  induction l with
  | nil => simp [assoc_get]
  | cons p rest ih =>
      obtain ⟨k, m⟩ := p
      by_cases hk : k = c
      · subst hk
        simp [assoc_get] at h
      · simp only [assoc_get, if_neg hk] at h
        simp [assoc_get, if_neg hk, ih h]

/-!  Lemmas about trie paths and `words_of`. -/

theorem path_to_append (s s' : List Char) :
    ∀ t : Node, path_to t (s ++ s') = (path_to t s).bind (fun m => path_to m s') := by
  induction s with
  | nil => intro t; simp [path_to]
  | cons c s ih =>
      intro t
      simp only [List.cons_append, path_to]
      cases find_child t c with
      | none => simp
      | some ch => simp [ih]

theorem path_to_cons {t ch m : Node} {c : Char} {cs : List Char}
    (hfc : find_child t c = some ch) (h : path_to t (c :: cs) = some m) :
    path_to ch cs = some m := by
  simp only [path_to, hfc] at h
  exact h

theorem mem_words_of_children {c : Char} {ch : Node} {q : List Char × Nat} :
    ∀ {children : List (Char × Node)}, (c, ch) ∈ children → q ∈ words_of ch →
      (c :: q.1, q.2) ∈ words_of_children children := by
  intro children hmem hq
  induction children with
  | nil => cases hmem
  | cons p rest ih =>
      rcases List.mem_cons.mp hmem with h | h
      · subst h
        simp only [words_of_children, List.mem_append]
        exact .inl (List.mem_map.mpr ⟨q, hq, rfl⟩)
      · obtain ⟨a, b⟩ := p
        simp only [words_of_children, List.mem_append]
        exact .inr (ih h)

theorem path_terminal_mem_words :
    ∀ (w : List Char) (t m : Node) (v : Nat), path_to t w = some m → m.leaf = some v →
      (w, v) ∈ words_of t := by
  intro w
  induction w with
  | nil =>
      intro t m v hp hl
      simp only [path_to, Option.some.injEq] at hp
      subst hp
      cases t with
      | mk l ch =>
          simp only [Node.leaf] at hl
          subst hl
          simp [words_of]
  | cons c w ih =>
      intro t m v hp hl
      cases t with
      | mk l children =>
          simp only [path_to] at hp
          cases hfc : find_child (.mk l children) c with
          | none => rw [hfc] at hp; cases hp
          | some ch =>
              rw [hfc] at hp
              have hmem : (c, ch) ∈ children := assoc_get_mem hfc
              have hw := ih ch m v hp hl
              have := mem_words_of_children (q := (w, v)) hmem hw
              simp only [words_of, List.mem_append]
              exact .inr this


/-!  Lemmas about the frontier advance step. -/

theorem advance_err_exists {c : Char} {v : Nat} :
    ∀ {f : List Node}, advance_frontier c f = .error v →
      ∃ n ∈ f, ∃ ch, find_child n c = some ch ∧ ch.leaf = some v := by
  intro f h
  induction f with
  | nil => simp [advance_frontier] at h
  | cons n ns ih =>
      cases hfc : find_child n c with
      | none =>
          simp only [advance_frontier, hfc] at h
          rcases ih h with ⟨m, hm, ch, h1, h2⟩
          exact ⟨m, List.mem_cons_of_mem _ hm, ch, h1, h2⟩
      | some nn =>
          cases hl : nn.leaf with
          | some u =>
              simp only [advance_frontier, hfc, hl, Except.error.injEq] at h
              subst h
              exact ⟨n, List.mem_cons_self .., nn, hfc, hl⟩
          | none =>
              cases hr : advance_frontier c ns with
              | error u =>
                  simp only [advance_frontier, hfc, hl, hr, Except.map,
                    Except.error.injEq] at h
                  subst h
                  rcases ih hr with ⟨m, hm, ch, h1, h2⟩
                  exact ⟨m, List.mem_cons_of_mem _ hm, ch, h1, h2⟩
              | ok l =>
                  simp [advance_frontier, hfc, hl, hr, Except.map] at h

theorem advance_ok_mem {c : Char} :
    ∀ {f newF : List Node}, advance_frontier c f = .ok newF →
      ∀ n' ∈ newF, ∃ n ∈ f, find_child n c = some n' := by
  intro f
  induction f with
  | nil =>
      intro newF h n' hn'
      simp only [advance_frontier, Except.ok.injEq] at h
      subst h
      cases hn'
  | cons n ns ih =>
      intro newF h n' hn'
      cases hfc : find_child n c with
      | none =>
          simp only [advance_frontier, hfc] at h
          rcases ih h n' hn' with ⟨m, hm, h1⟩
          exact ⟨m, List.mem_cons_of_mem _ hm, h1⟩
      | some nn =>
          cases hl : nn.leaf with
          | some u => simp [advance_frontier, hfc, hl] at h
          | none =>
              cases hr : advance_frontier c ns with
              | error u => simp [advance_frontier, hfc, hl, hr, Except.map] at h
              | ok l =>
                  simp only [advance_frontier, hfc, hl, hr, Except.map,
                    Except.ok.injEq] at h
                  subst h
                  rcases List.mem_cons.mp hn' with rfl | h2
                  · exact ⟨n, List.mem_cons_self .., hfc⟩
                  · rcases ih hr n' h2 with ⟨m, hm, h1⟩
                    exact ⟨m, List.mem_cons_of_mem _ hm, h1⟩

theorem advance_err_of_mem {c : Char} {m ch : Node} :
    ∀ {f : List Node}, m ∈ f → find_child m c = some ch → ch.leaf.isSome = true →
      ∃ v, advance_frontier c f = .error v := by
  intro f hm hfc hl
  induction f with
  | nil => cases hm
  | cons n ns ih =>
      cases hfc' : find_child n c with
      | none =>
          rcases List.mem_cons.mp hm with rfl | h2
          · rw [hfc'] at hfc; cases hfc
          · rcases ih h2 with ⟨v, hv⟩
            exact ⟨v, by simp [advance_frontier, hfc', hv]⟩
      | some nn =>
          cases hl' : nn.leaf with
          | some u => exact ⟨u, by simp [advance_frontier, hfc', hl']⟩
          | none =>
              rcases List.mem_cons.mp hm with rfl | h2
              · rw [hfc'] at hfc
                injection hfc with hfc
                subst hfc
                rw [hl'] at hl
                cases hl
              · rcases ih h2 with ⟨v, hv⟩
                exact ⟨v, by simp [advance_frontier, hfc', hl', hv, Except.map]⟩

theorem advance_ok_child_mem {c : Char} {m ch : Node} :
    ∀ {f newF : List Node}, advance_frontier c f = .ok newF →
      m ∈ f → find_child m c = some ch → ch ∈ newF := by
  intro f
  induction f with
  | nil =>
      intro newF _ hm
      cases hm
  | cons n ns ih =>
      intro newF h hm hfc
      cases hfc' : find_child n c with
      | none =>
          simp only [advance_frontier, hfc'] at h
          rcases List.mem_cons.mp hm with rfl | h2
          · rw [hfc'] at hfc; cases hfc
          · exact ih h h2 hfc
      | some nn =>
          cases hl' : nn.leaf with
          | some u => simp [advance_frontier, hfc', hl'] at h
          | none =>
              cases hr : advance_frontier c ns with
              | error u => simp [advance_frontier, hfc', hl', hr, Except.map] at h
              | ok l =>
                  simp only [advance_frontier, hfc', hl', hr, Except.map,
                    Except.ok.injEq] at h
                  subst h
                  rcases List.mem_cons.mp hm with rfl | h2
                  · rw [hfc'] at hfc
                    injection hfc with hfc
                    subst hfc
                    exact List.mem_cons_self ..
                  · exact List.mem_cons_of_mem _ (ih hr h2 hfc)

/-!  The frontier invariant: every frontier node is reached from the root
by some nonempty final segment of the consumed input. -/

theorem frontier_inv_nil (root : Node) (pre : List Char) : frontier_inv root pre [] := by
  intro n hn
  cases hn

theorem frontier_inv_advance {root : Node} {pre : List Char} {f newF : List Node} {c : Char}
    (hinv : frontier_inv root pre f) (hadv : advance_frontier c f = .ok newF) :
    frontier_inv root (pre ++ [c]) newF := by
  intro n' hn'
  rcases advance_ok_mem hadv n' hn' with ⟨n, hn, hfc⟩
  rcases hinv n hn with ⟨s, hne, hend, hpath⟩
  refine ⟨s ++ [c], by simp, ends_with_push c hend, ?_⟩
  rw [path_to_append, hpath]
  simp [path_to, hfc]

theorem frontier_inv_push {root : Node} {pre : List Char} {f : List Node} {c : Char}
    {child : Node} (hinv : frontier_inv root (pre ++ [c]) f)
    (hroot : assoc_get root.children c = some child) :
    frontier_inv root (pre ++ [c]) (f ++ [child]) := by
  intro n hn
  rcases List.mem_append.mp hn with h | h
  · exact hinv n h
  · rcases List.mem_singleton.mp h with rfl
    exact ⟨[c], by simp, ⟨pre, rfl⟩, by simp [path_to, find_child, hroot]⟩

/-!  Soundness: a successful scan result comes from a numeric character or
from a stored word occurring in the input. -/

theorem find_aux_sound (root : Node) :
    ∀ (cs pre : List Char) (f : List Node) (v : Nat),
      frontier_inv root pre f →
      find_digit_aux root cs f = some v →
      (∃ c ∈ cs, is_numeric c = true ∧ v = (to_digit_10 c).getD 0) ∨
      (∃ w m, path_to root w = some m ∧ m.leaf = some v ∧ occurs_in w (pre ++ cs)) := by
  intro cs
  induction cs with
  | nil =>
      intro pre f v _ h
      simp [find_digit_aux] at h
  | cons d cs ih =>
      intro pre f v hinv h
      cases hnum : is_numeric d with
      | true =>
          simp only [find_digit_aux, hnum, if_true, Option.some.injEq] at h
          exact .inl ⟨d, List.mem_cons_self .., hnum, h.symm⟩
      | false =>
          cases hadv : advance_frontier d f with
          | error u =>
              simp only [find_digit_aux, hnum, Bool.false_eq_true, if_false, hadv,
                Option.some.injEq] at h
              subst h
              rcases advance_err_exists hadv with ⟨n, hn, ch, hfc, hl⟩
              rcases hinv n hn with ⟨s, hne, ⟨p, hp⟩, hpath⟩
              refine .inr ⟨s ++ [d], ch, ?_, hl, ?_⟩
              · rw [path_to_append, hpath]
                simp [path_to, hfc]
              · exact ⟨p, cs, by rw [hp]; simp⟩
          | ok newF =>
              have hinv2 := frontier_inv_advance hinv hadv
              have key : ∀ f2, frontier_inv root (pre ++ [d]) f2 →
                  find_digit_aux root cs f2 = some v →
                  (∃ c ∈ d :: cs, is_numeric c = true ∧ v = (to_digit_10 c).getD 0) ∨
                  (∃ w m, path_to root w = some m ∧ m.leaf = some v ∧
                    occurs_in w (pre ++ d :: cs)) := by
                intro f2 hi hf
                rcases ih (pre ++ [d]) f2 v hi hf with h1 | h2
                · rcases h1 with ⟨c, hc, a, b⟩
                  exact .inl ⟨c, List.mem_cons_of_mem _ hc, a, b⟩
                · rcases h2 with ⟨w, m, a, b, hocc⟩
                  refine .inr ⟨w, m, a, b, ?_⟩
                  simpa [List.append_assoc] using hocc
              cases hroot : assoc_get root.children d with
              | some child =>
                  simp only [find_digit_aux, hnum, Bool.false_eq_true, if_false, hadv,
                    hroot] at h
                  exact key _ (frontier_inv_push hinv2 hroot) h
              | none =>
                  simp only [find_digit_aux, hnum, Bool.false_eq_true, if_false, hadv,
                    hroot] at h
                  exact key _ hinv2 h

/-!  Completeness: the scan cannot miss a numeric character, nor a stored
word of length at least two occurring in the input. -/

theorem find_aux_none_no_numeric (root : Node) :
    ∀ (cs : List Char) (f : List Node), find_digit_aux root cs f = none →
      ∀ c ∈ cs, is_numeric c = false := by
  intro cs
  induction cs with
  | nil =>
      intro f _ c hc
      cases hc
  | cons d cs ih =>
      intro f h c hc
      cases hnum : is_numeric d with
      | true => simp [find_digit_aux, hnum] at h
      | false =>
          rcases List.mem_cons.mp hc with rfl | hc2
          · exact hnum
          · cases hadv : advance_frontier d f with
            | error u => simp [find_digit_aux, hnum, hadv] at h
            | ok newF =>
                cases hroot : assoc_get root.children d with
                | some child =>
                    simp only [find_digit_aux, hnum, Bool.false_eq_true, if_false, hadv,
                      hroot] at h
                    exact ih _ h c hc2
                | none =>
                    simp only [find_digit_aux, hnum, Bool.false_eq_true, if_false, hadv,
                      hroot] at h
                    exact ih _ h c hc2

theorem find_aux_track (root : Node) :
    ∀ (w : List Char) (c : Char) (rest : List Char) (n m : Node) (f : List Node),
      n ∈ f → path_to n (c :: w) = some m → m.leaf.isSome = true →
      find_digit_aux root (c :: (w ++ rest)) f ≠ none := by
  intro w
  induction w with
  | nil =>
      intro c rest n m f hn hpath hleaf h
      cases hfc : find_child n c with
      | none => simp [path_to, hfc] at hpath
      | some ch =>
          simp only [path_to, hfc, Option.some.injEq] at hpath
          subst hpath
          cases hnum : is_numeric c with
          | true => simp [find_digit_aux, hnum] at h
          | false =>
              rcases advance_err_of_mem hn hfc hleaf with ⟨v, hv⟩
              simp [find_digit_aux, hnum, hv] at h
  | cons c1 w ih =>
      intro c rest n m f hn hpath hleaf h
      cases hfc : find_child n c with
      | none => simp [path_to, hfc] at hpath
      | some n1 =>
          simp only [path_to, hfc] at hpath
          cases hnum : is_numeric c with
          | true => simp [find_digit_aux, hnum] at h
          | false =>
              cases hadv : advance_frontier c f with
              | error u => simp [find_digit_aux, hnum, hadv] at h
              | ok newF =>
                  have hn1leaf : n1.leaf = none := by
                    cases hl : n1.leaf with
                    | none => rfl
                    | some u =>
                        rcases advance_err_of_mem hn hfc (by simp [hl]) with ⟨v, hv⟩
                        rw [hv] at hadv
                        cases hadv
                  have hn1 : n1 ∈ newF := advance_ok_child_mem hadv hn hfc
                  cases hroot : assoc_get root.children c with
                  | some child =>
                      simp only [find_digit_aux, hnum, Bool.false_eq_true, if_false, hadv,
                        hroot] at h
                      exact ih c1 rest n1 m _ (List.mem_append.mpr (.inl hn1)) hpath hleaf h
                  | none =>
                      simp only [find_digit_aux, hnum, Bool.false_eq_true, if_false, hadv,
                        hroot] at h
                      exact ih c1 rest n1 m _ hn1 hpath hleaf h

theorem find_aux_complete (root : Node) :
    ∀ (cs : List Char) (c0 c1 : Char) (w : List Char) (m : Node) (f : List Node),
      occurs_in (c0 :: c1 :: w) cs → path_to root (c0 :: c1 :: w) = some m →
      m.leaf.isSome = true → find_digit_aux root cs f ≠ none := by
  intro cs
  induction cs with
  | nil =>
      intro c0 c1 w m f hocc _ _ _
      rcases hocc with ⟨p, q, h⟩
      cases p <;> simp at h
  | cons d cs ih =>
      intro c0 c1 w m f hocc hpath hleaf h
      rcases hocc with ⟨p, q, hpq⟩
      cases p with
      | cons a p =>
          simp only [List.cons_append] at hpq
          injection hpq with h1 h2
          have hocc' : occurs_in (c0 :: c1 :: w) cs := ⟨p, q, h2⟩
          cases hnum : is_numeric d with
          | true => simp [find_digit_aux, hnum] at h
          | false =>
              cases hadv : advance_frontier d f with
              | error u => simp [find_digit_aux, hnum, hadv] at h
              | ok newF =>
                  cases hroot : assoc_get root.children d with
                  | some child =>
                      simp only [find_digit_aux, hnum, Bool.false_eq_true, if_false, hadv,
                        hroot] at h
                      exact ih c0 c1 w m _ hocc' hpath hleaf h
                  | none =>
                      simp only [find_digit_aux, hnum, Bool.false_eq_true, if_false, hadv,
                        hroot] at h
                      exact ih c0 c1 w m _ hocc' hpath hleaf h
      | nil =>
          simp only [List.nil_append, List.cons_append] at hpq
          injection hpq with h1 h2
          subst h1
          subst h2
          cases hnum : is_numeric d with
          | true => simp [find_digit_aux, hnum] at h
          | false =>
              cases hadv : advance_frontier d f with
              | error u => simp [find_digit_aux, hnum, hadv] at h
              | ok newF =>
                  cases hfc : find_child root d with
                  | none => simp [path_to, hfc] at hpath
                  | some n1 =>
                      have hpath' : path_to n1 (c1 :: w) = some m := path_to_cons hfc hpath
                      have hroot : assoc_get root.children d = some n1 := hfc
                      simp only [find_digit_aux, hnum, Bool.false_eq_true, if_false, hadv,
                        hroot, List.cons_append] at h
                      have hn1 : n1 ∈ newF ++ [n1] :=
                        List.mem_append.mpr (.inr (List.mem_singleton.mpr rfl))
                      exact find_aux_track root w c1 q n1 m (newF ++ [n1]) hn1 hpath' hleaf h

/-!  The digit-free characterisation: when no stored word occurs in the
input, the scan returns exactly the value of the first numeric character
(if any). -/

theorem find_aux_no_word (root : Node) :
    ∀ (cs pre : List Char) (f : List Node),
      frontier_inv root pre f →
      (∀ w m, path_to root w = some m → m.leaf.isSome = true →
        ¬ occurs_in w (pre ++ cs)) →
      find_digit_aux root cs f =
        (cs.find? is_numeric).map (fun c => (to_digit_10 c).getD 0) := by
  intro cs
  induction cs with
  | nil =>
      intro pre f _ _
      simp [find_digit_aux]
  | cons d cs ih =>
      intro pre f hinv hnw
      cases hnum : is_numeric d with
      | true =>
          simp [find_digit_aux, hnum, List.find?_cons_of_pos _ hnum]
      | false =>
          have hfind : (d :: cs).find? is_numeric = cs.find? is_numeric :=
            List.find?_cons_of_neg _ (by simp [hnum])
          cases hadv : advance_frontier d f with
          | error u =>
              exfalso
              rcases advance_err_exists hadv with ⟨n, hn, ch, hfc, hl⟩
              rcases hinv n hn with ⟨s, hne, ⟨p, hp⟩, hpath⟩
              refine hnw (s ++ [d]) ch ?_ (by simp [hl]) ⟨p, cs, by rw [hp]; simp⟩
              rw [path_to_append, hpath]
              simp [path_to, hfc]
          | ok newF =>
              have hinv2 := frontier_inv_advance hinv hadv
              have hnw2 : ∀ w m, path_to root w = some m → m.leaf.isSome = true →
                  ¬ occurs_in w ((pre ++ [d]) ++ cs) := by
                intro w m h1 h2 hocc
                exact hnw w m h1 h2 (by simpa [List.append_assoc] using hocc)
              cases hroot : assoc_get root.children d with
              | some child =>
                  simp only [find_digit_aux, hnum, Bool.false_eq_true, if_false, hadv,
                    hroot, hfind]
                  exact ih (pre ++ [d]) _ (frontier_inv_push hinv2 hroot) hnw2
              | none =>
                  simp only [find_digit_aux, hnum, Bool.false_eq_true, if_false, hadv,
                    hroot, hfind]
                  exact ih (pre ++ [d]) _ hinv2 hnw2

/-!  Arithmetic bound for the literal-digit branch. -/

theorem to_digit_10_getD_le (c : Char) : (to_digit_10 c).getD 0 ≤ 9 := by
  rw [to_digit_10]
  split
  · rename_i h
    simp only [Option.getD_some]
    simp only [Char.isDigit, Bool.and_eq_true, decide_eq_true_eq] at h
    have h9 : c.toNat ≤ 57 := by
      have := h.2
      simp only [Char.le_def] at this
      exact this
    omega
  · simp

theorem find_q_congr (p q : Char → Bool) :
    ∀ l : List Char, (∀ c ∈ l, p c = q c) → l.find? p = l.find? q := by
  intro l
  induction l with
  | nil => intro _; rfl
  | cons c cs ih =>
      intro h
      have hc : p c = q c := h c (List.mem_cons_self ..)
      cases hqc : q c with
      | true =>
          rw [List.find?_cons_of_pos _ (hc.trans hqc), List.find?_cons_of_pos _ hqc]
      | false =>
          rw [List.find?_cons_of_neg _ (by simp [hc, hqc]),
            List.find?_cons_of_neg _ (by simp [hqc])]
          exact ih (fun x hx => h x (List.mem_cons_of_mem _ hx))

/-!  Concrete facts about the two vocabulary tries, established by
computation. -/

theorem words_of_tree_eq : words_of get_tree = FIGURES := by rfl

theorem words_tree_le9 : ∀ p ∈ words_of get_tree, p.2 ≤ 9 := by decide

theorem words_rtree_le9 : ∀ p ∈ words_of get_rtree, p.2 ≤ 9 := by decide

theorem rtree_words_rev_mem : ∀ p ∈ words_of get_rtree, (p.1.reverse, p.2) ∈ FIGURES := by
  decide

theorem tree_words_rtree_ok : (words_of get_tree).all rtree_word_check = true := by rfl

/-!  Value bounds for the two scans. -/

theorem find_digit_tree_le {cs : List Char} {v : Nat}
    (h : find_digit cs get_tree = some v) : v ≤ 9 := by
  rcases find_aux_sound get_tree cs [] [] v (frontier_inv_nil _ _) h with h1 | h2
  · rcases h1 with ⟨c, _, _, rfl⟩
    exact to_digit_10_getD_le c
  · rcases h2 with ⟨w, m, hp, hl, _⟩
    exact words_tree_le9 (w, v) (path_terminal_mem_words w get_tree m v hp hl)

theorem find_digit_rtree_le {cs : List Char} {v : Nat}
    (h : find_digit cs get_rtree = some v) : v ≤ 9 := by
  rcases find_aux_sound get_rtree cs [] [] v (frontier_inv_nil _ _) h with h1 | h2
  · rcases h1 with ⟨c, _, _, rfl⟩
    exact to_digit_10_getD_le c
  · rcases h2 with ⟨w, m, hp, hl, _⟩
    exact words_rtree_le9 (w, v) (path_terminal_mem_words w get_rtree m v hp hl)

/-!  The checked (panic-tracking) variants agree with the plain functions:
no `.unwrap()` site is ever reached with `None`. -/

theorem advance_frontier_checked_eq (c : Char) :
    ∀ f : List Node, advance_frontier_checked c f = some (advance_frontier c f) := by
  intro f
  induction f with
  | nil => rfl
  | cons n ns ih =>
      cases hfc : assoc_get n.children c with
      | none =>
          simp only [advance_frontier_checked, advance_frontier, contains_key, find_child,
            hfc, Option.isSome_none, Bool.false_eq_true, if_false]
          exact ih
      | some nn =>
          cases hl : nn.leaf with
          | some u =>
              simp [advance_frontier_checked, advance_frontier, contains_key, find_child,
                hfc, hl]
          | none =>
              cases hr : advance_frontier c ns with
              | error u =>
                  rw [hr] at ih
                  simp [advance_frontier_checked, advance_frontier, contains_key,
                    find_child, hfc, hl, ih, hr, Except.map]
              | ok l =>
                  rw [hr] at ih
                  simp [advance_frontier_checked, advance_frontier, contains_key,
                    find_child, hfc, hl, ih, hr, Except.map]

theorem find_digit_aux_checked_eq (root : Node) :
    ∀ (cs : List Char) (f : List Node),
      find_digit_aux_checked root cs f = some (find_digit_aux root cs f) := by
  intro cs
  induction cs with
  | nil => intro f; rfl
  | cons c cs ih =>
      intro f
      cases hnum : is_numeric c with
      | true => simp [find_digit_aux_checked, find_digit_aux, hnum]
      | false =>
          cases hadv : advance_frontier c f with
          | error u =>
              simp [find_digit_aux_checked, find_digit_aux, hnum,
                advance_frontier_checked_eq, hadv]
          | ok newF =>
              cases hroot : assoc_get root.children c with
              | some child =>
                  have hck : contains_key root.children c = true := by
                    simp [contains_key, hroot]
                  simp [find_digit_aux_checked, find_digit_aux, hnum,
                    advance_frontier_checked_eq, hadv, hroot, hck, ih]
              | none =>
                  have hck : contains_key root.children c = false := by
                    simp [contains_key, hroot]
                  simp [find_digit_aux_checked, find_digit_aux, hnum,
                    advance_frontier_checked_eq, hadv, hroot, hck, ih]

theorem find_digit_checked_eq (cs : List Char) (root : Node) :
    find_digit_checked cs root = some (find_digit cs root) :=
  find_digit_aux_checked_eq root cs []

theorem parse_cal_doc_line_checked_eq (line : List Char) (tree rtree : Node) :
    parse_cal_doc_line_checked line tree rtree =
      some (parse_cal_doc_line line tree rtree) := by
  simp only [parse_cal_doc_line_checked, parse_cal_doc_line, find_digit_checked_eq]
  cases h : find_digit line tree with
  | none => simp
  | some v => simp

theorem sum_lines_checked_eq (tree rtree : Node) :
    ∀ ls : List (List Char), sum_lines_checked tree rtree ls =
      some ((ls.map (fun l => parse_cal_doc_line l tree rtree)).sum) := by
  intro ls
  induction ls with
  | nil => rfl
  | cons l ls ih => simp [sum_lines_checked, parse_cal_doc_line_checked_eq, ih]

theorem parse_cal_doc_checked_eq (cal_doc : List Char) :
    parse_cal_doc_checked cal_doc = some (parse_cal_doc cal_doc) := by
  simp [parse_cal_doc_checked, parse_cal_doc, sum_lines_checked_eq]

/-!  Idempotence of path insertion. -/

theorem add_path_idem :
    ∀ (w : List Char) (v : Nat) (t : Node),
      add_path w v (add_path w v t) = add_path w v t := by
  intro w
  induction w with
  | nil =>
      intro v t
      cases t
      rfl
  | cons c cs ih =>
      intro v t
      cases t with
      | mk l ch =>
          cases hg : assoc_get ch c with
          | some child =>
              have hg2 : assoc_get (assoc_set ch c (add_path cs v child)) c
                  = some (add_path cs v child) := assoc_get_set hg
              simp only [add_path, hg, hg2, ih, assoc_set_set]
          | none =>
              have hg2 : assoc_get (ch ++ [(c, add_path cs v (.mk none []))]) c
                  = some (add_path cs v (.mk none []))  := assoc_get_append_none hg
              simp only [add_path, hg, hg2, ih]
              rw [assoc_set_get_self hg2]

/-!  Transfer of the "no spelled word occurs" premise between the two
tries, and the resulting closed forms of the scans on word-free lines. -/

theorem is_numeric_of_digit {c : Char} (h : c.isDigit = true) : is_numeric c = true := by
  simp [is_numeric, h]

theorem not_occurs_of_all {line : List Char}
    (h : FIGURES.all (fun p => ! occurs_b p.1 line) = true) :
    ∀ p ∈ FIGURES, ¬ occurs_in p.1 line := by
  intro p hp hocc
  have h2 := List.all_eq_true.mp h p hp
  rw [← occurs_b_iff] at hocc
  simp [hocc] at h2

theorem no_word_tree {line : List Char}
    (hfig : ∀ p ∈ FIGURES, ¬ occurs_in p.1 line) :
    ∀ w m, path_to get_tree w = some m → m.leaf.isSome = true → ¬ occurs_in w line := by
  intro w m hp hl hocc
  rcases Option.isSome_iff_exists.mp hl with ⟨v, hv⟩
  have hmem : (w, v) ∈ FIGURES :=
    words_of_tree_eq ▸ path_terminal_mem_words w get_tree m v hp hv
  exact hfig (w, v) hmem hocc

theorem no_word_rtree {line : List Char}
    (hfig : ∀ p ∈ FIGURES, ¬ occurs_in p.1 line) :
    ∀ w m, path_to get_rtree w = some m → m.leaf.isSome = true →
      ¬ occurs_in w line.reverse := by
  intro w m hp hl hocc
  rcases Option.isSome_iff_exists.mp hl with ⟨v, hv⟩
  have hmem := path_terminal_mem_words w get_rtree m v hp hv
  have hrev := rtree_words_rev_mem (w, v) hmem
  have hocc2 : occurs_in w.reverse line.reverse.reverse := occurs_in_reverse hocc
  rw [List.reverse_reverse] at hocc2
  exact hfig (w.reverse, v) hrev hocc2

theorem find_digit_no_word_tree {line : List Char}
    (hfig : ∀ p ∈ FIGURES, ¬ occurs_in p.1 line) :
    find_digit line get_tree =
      (line.find? is_numeric).map (fun c => (to_digit_10 c).getD 0) := by
  refine find_aux_no_word get_tree line [] [] (frontier_inv_nil _ _) ?_
  intro w m h1 h2 hocc
  exact no_word_tree hfig w m h1 h2 (by simpa using hocc)

theorem find_digit_no_word_rtree {line : List Char}
    (hfig : ∀ p ∈ FIGURES, ¬ occurs_in p.1 line) :
    find_digit line.reverse get_rtree =
      (line.reverse.find? is_numeric).map (fun c => (to_digit_10 c).getD 0) := by
  refine find_aux_no_word get_rtree line.reverse [] [] (frontier_inv_nil _ _) ?_
  intro w m h1 h2 hocc
  exact no_word_rtree hfig w m h1 h2 (by simpa using hocc)

/-!  Claim theorems. -/

/-- C1: on the fixed 18-line fixture document (lines "two1nine",
"eightwothree", "abcone2threexyz", "xtwone3four", "4nineeightseven2",
"zoneight234", "7pqrstsixteen", "oneight", "one", "twone", "eightwo",
"nineight", "eighthree", "nineeight", "eeeight", "oooneeone", "1",
"eightwothree") the document aggregator `parse_cal_doc` returns exactly
885; the second conjunct exhibits the line split of the fixture. -/
theorem C1_fixture_sum :
    parse_cal_doc cal_doc_fixture = 885 ∧
    (rust_lines cal_doc_fixture).map (fun l => String.mk l) =
      ["two1nine", "eightwothree", "abcone2threexyz", "xtwone3four",
       "4nineeightseven2", "zoneight234", "7pqrstsixteen", "oneight", "one",
       "twone", "eightwo", "nineight", "eighthree", "nineeight", "eeeight",
       "oooneeone", "1", "eightwothree"] := by
  exact ⟨rfl, rfl⟩

/-- C2 counterexample: the claim says `find_digit` never returns the value
0, but on the line "0" (a literal zero digit) it returns `some 0` with
either vocabulary trie: the numeric branch yields
`to_digit(10).unwrap_or(0) = 0`. -/
theorem C2_zero_counterexample :
    find_digit ("0".toList) get_tree = some 0 ∧
    find_digit ("0".toList) get_rtree = some 0 := by
  exact ⟨rfl, rfl⟩

/-- C2 (amended): for every character sequence, `find_digit` with either
vocabulary trie returns `none` or a digit value in the range 0 to 9
inclusive; the value 0 is possible (literal zero digits, and numeric
characters outside 0-9 such as ¼), so the never-zero part of the original
claim is dropped. -/
theorem C2_range_amended (cs : List Char) (v : Nat) :
    (find_digit cs get_tree = some v → v ≤ 9) ∧
    (find_digit cs get_rtree = some v → v ≤ 9) :=
  ⟨fun h => find_digit_tree_le h, fun h => find_digit_rtree_le h⟩

/-- Witness for C2 (amended) at the concrete line "1x". -/
theorem C2_range_amended_witness :
    find_digit ("1x".toList) get_tree = some 1 ∧ 1 ≤ 9 :=
  ⟨rfl, (C2_range_amended ("1x".toList) 1).1 rfl⟩

/-- C3: if the forward scan of a line returns `none` the line scores 0 (the
reverse scan is short-circuited in the source); the empty line scores 0;
and every line with no ASCII digit character and no spelled digit word
scores 0. -/
theorem C3_no_forward_digit_scores_zero :
    (∀ line, find_digit line get_tree = none →
      parse_cal_doc_line line get_tree get_rtree = 0) ∧
    parse_cal_doc_line [] get_tree get_rtree = 0 ∧
    (∀ line, (∀ c ∈ line, c.isDigit = false) →
      (∀ p ∈ FIGURES, ¬ occurs_in p.1 line) →
      parse_cal_doc_line line get_tree get_rtree = 0) := by
  refine ⟨?_, rfl, ?_⟩
  · intro line h
    simp [parse_cal_doc_line, h]
  · intro line hdig hfig
    have hfw := find_digit_no_word_tree hfig
    cases hfind : line.find? is_numeric with
    | none =>
        rw [hfind] at hfw
        simp [parse_cal_doc_line, hfw]
    | some c =>
        have hc : c ∈ line := List.mem_of_find?_eq_some hfind
        have hzero : (to_digit_10 c).getD 0 = 0 := by
          simp [to_digit_10, hdig c hc]
        have hfirst : find_digit line get_tree = some 0 := by
          rw [hfw, hfind]
          simp [hzero]
        have hrw := find_digit_no_word_rtree hfig
        have hlast0 : (find_digit line.reverse get_rtree).getD 0 = 0 := by
          rw [hrw]
          cases hfind2 : line.reverse.find? is_numeric with
          | none => simp
          | some c2 =>
              have hc2 : c2 ∈ line := List.mem_reverse.mp (List.mem_of_find?_eq_some hfind2)
              simp [to_digit_10, hdig c2 hc2]
        simp [parse_cal_doc_line, hfirst, hlast0]

/-- Witness for C3 at the concrete lines "abc" (forward scan none) and
"xyz" (no digit, no word). -/
theorem C3_witness :
    parse_cal_doc_line ("abc".toList) get_tree get_rtree = 0 ∧
    parse_cal_doc_line ("xyz".toList) get_tree get_rtree = 0 :=
  ⟨C3_no_forward_digit_scores_zero.1 ("abc".toList) rfl,
   C3_no_forward_digit_scores_zero.2.2 ("xyz".toList) (by decide)
     (not_occurs_of_all (by rfl))⟩

/-- C4 counterexample: the line "¼5" contains a literal decimal digit (5,
both first and last) and no spelled digit word, yet it scores 5, not
10*5+5 = 55: the character ¼ is numeric (Unicode category No), so the
forward scan returns `to_digit(10).unwrap_or(0) = 0` on it instead of
reaching the 5. -/
theorem C4_unicode_counterexample :
    ("¼5".toList).any Char.isDigit = true ∧
    FIGURES.all (fun p => ! occurs_b p.1 ("¼5".toList)) = true ∧
    first_literal_digit ("¼5".toList) = some 5 ∧
    last_literal_digit ("¼5".toList) = some 5 ∧
    parse_cal_doc_line ("¼5".toList) get_tree get_rtree = 5 ∧
    (5 : Nat) ≠ 10 * 5 + 5 := by
  refine ⟨rfl, rfl, rfl, rfl, rfl, by decide⟩

/-- C4 (amended): for every line of Latin-1 characters (every code point
below U+0100) containing at least one literal decimal digit, no spelled
digit word, and no numeric character other than ASCII digits, the score
is 10 * (first literal digit) + (last literal digit); and (second
conjunct) a literal numeric character encountered by `find_digit` returns
immediately, taking precedence over any in-progress spelled-word match in
the frontier.  The Latin-1 bound pins the line inside the range on which
`is_numeric` models `char::is_numeric` exactly; above it (e.g. the
Arabic-Indic digit ٥, U+0665, category Nd) the program again diverges
from 10*first+last just as at the ¼ counterexample, so such lines are
outside the amended claim. -/
theorem C4_literal_digit_amended :
    (∀ (line : List Char) (d1 d2 : Nat),
      (∀ c ∈ line, c.toNat < 256) →
      (∀ c ∈ line, is_numeric c = true → c.isDigit = true) →
      (∀ p ∈ FIGURES, ¬ occurs_in p.1 line) →
      first_literal_digit line = some d1 →
      last_literal_digit line = some d2 →
      parse_cal_doc_line line get_tree get_rtree = 10 * d1 + d2) ∧
    (∀ (root : Node) (c : Char) (cs : List Char) (f : List Node),
      is_numeric c = true →
      find_digit_aux root (c :: cs) f = some ((to_digit_10 c).getD 0)) := by
  constructor
  · intro line d1 d2 _hlatin hascii hnw h1 h2
    have hpe : ∀ c ∈ line, is_numeric c = c.isDigit := by
      intro c hc
      cases hd : c.isDigit with
      | true => rw [is_numeric_of_digit hd]
      | false =>
          cases hn : is_numeric c with
          | false => rfl
          | true => exact absurd (hascii c hc hn) (by simp [hd])
    have hperev : ∀ c ∈ line.reverse, is_numeric c = c.isDigit :=
      fun c hc => hpe c (List.mem_reverse.mp hc)
    have hfw := find_digit_no_word_tree hnw
    rw [find_q_congr is_numeric Char.isDigit line hpe] at hfw
    simp only [first_literal_digit] at h1
    cases hfind : line.find? Char.isDigit with
    | none => rw [hfind] at h1; cases h1
    | some c =>
        rw [hfind] at h1
        have hdig : c.isDigit = true := List.find?_some hfind
        have hfirst : find_digit line get_tree = some d1 := by
          rw [hfw, hfind]
          simp only [Option.map_some']
          congr 1
          simp only [to_digit_10, hdig, if_true, Option.getD_some]
          simpa using h1
        have hrw := find_digit_no_word_rtree hnw
        rw [find_q_congr is_numeric Char.isDigit line.reverse hperev] at hrw
        simp only [last_literal_digit, first_literal_digit] at h2
        cases hfind2 : line.reverse.find? Char.isDigit with
        | none => rw [hfind2] at h2; cases h2
        | some c2 =>
            rw [hfind2] at h2
            have hdig2 : c2.isDigit = true := List.find?_some hfind2
            have hlast : find_digit line.reverse get_rtree = some d2 := by
              rw [hrw, hfind2]
              simp only [Option.map_some']
              congr 1
              simp only [to_digit_10, hdig2, if_true, Option.getD_some]
              simpa using h2
            simp [parse_cal_doc_line, hfirst, hlast]
            omega
  · intro root c cs f h
    simp [find_digit_aux, h]

/-- Witness for C4 (amended) at the concrete line "1abc2" and the concrete
numeric step on the digit 7. -/
theorem C4_literal_digit_amended_witness :
    parse_cal_doc_line ("1abc2".toList) get_tree get_rtree = 10 * 1 + 2 ∧
    find_digit_aux get_tree ['7'] [] = some 7 :=
  ⟨C4_literal_digit_amended.1 ("1abc2".toList) 1 2 (by decide) (by decide)
      (not_occurs_of_all (by rfl)) rfl rfl,
   C4_literal_digit_amended.2 get_tree '7' [] [] rfl⟩

/-- C5: the line scorer yields the documented values on the six test
lines: "1abc2" ↦ 12, "pqr3stu8vwx" ↦ 38, "eightwothree" ↦ 83,
"twoeighthree" ↦ 23, "fifour" ↦ 44, "onine" ↦ 99. -/
theorem C5_line_scorer_examples :
    parse_cal_doc_line ("1abc2".toList) get_tree get_rtree = 12 ∧
    parse_cal_doc_line ("pqr3stu8vwx".toList) get_tree get_rtree = 38 ∧
    parse_cal_doc_line ("eightwothree".toList) get_tree get_rtree = 83 ∧
    parse_cal_doc_line ("twoeighthree".toList) get_tree get_rtree = 23 ∧
    parse_cal_doc_line ("fifour".toList) get_tree get_rtree = 44 ∧
    parse_cal_doc_line ("onine".toList) get_tree get_rtree = 99 := by
  exact ⟨rfl, rfl, rfl, rfl, rfl, rfl⟩

/-- C6: whenever the forward scan of a line finds a digit, the reverse scan
(over the reversed characters with the reverse trie) also finds one, so
the `unwrap_or(0)` default for the reverse result is unreachable when the
forward result is present. -/
theorem C6_reverse_scan_finds_digit (line : List Char) (v : Nat)
    (h : find_digit line get_tree = some v) :
    find_digit line.reverse get_rtree ≠ none := by
  intro hnone
  rcases find_aux_sound get_tree line [] [] v (frontier_inv_nil _ _) h with h1 | h2
  · rcases h1 with ⟨c, hc, hnum, _⟩
    have hno := find_aux_none_no_numeric get_rtree line.reverse [] hnone c
      (List.mem_reverse.mpr hc)
    rw [hno] at hnum
    cases hnum
  · rcases h2 with ⟨w, m, hp, hl, hocc⟩
    have hmem : (w, v) ∈ words_of get_tree := path_terminal_mem_words w get_tree m v hp hl
    have hchk := List.all_eq_true.mp tree_words_rtree_ok _ hmem
    simp only [List.nil_append] at hocc
    have hoccr : occurs_in w.reverse line.reverse := occurs_in_reverse hocc
    cases hrev : w.reverse with
    | nil => simp [rtree_word_check, hrev] at hchk
    | cons c0 rest =>
        cases rest with
        | nil => simp [rtree_word_check, hrev] at hchk
        | cons c1 w2 =>
            rw [hrev] at hoccr
            cases hpt : path_to get_rtree (c0 :: c1 :: w2) with
            | none => simp [rtree_word_check, hrev, hpt] at hchk
            | some m' =>
                have hterm : m'.leaf.isSome = true := by
                  simpa [rtree_word_check, hrev, hpt] using hchk
                exact find_aux_complete get_rtree line.reverse c0 c1 w2 m' []
                  hoccr hpt hterm hnone

/-- Witness for C6 at the concrete line "two". -/
theorem C6_reverse_scan_finds_digit_witness :
    find_digit ("two".toList).reverse get_rtree ≠ none :=
  C6_reverse_scan_finds_digit ("two".toList) 2 rfl

/-- C7: for every line the line scorer returns a value between 0 and 99
inclusive. -/
theorem C7_score_range (line : List Char) :
    0 ≤ parse_cal_doc_line line get_tree get_rtree ∧
    parse_cal_doc_line line get_tree get_rtree ≤ 99 := by
  refine ⟨Nat.zero_le _, ?_⟩
  cases h1 : find_digit line get_tree with
  | none => simp [parse_cal_doc_line, h1]
  | some v =>
      have hv := find_digit_tree_le h1
      cases h2 : find_digit line.reverse get_rtree with
      | none =>
          simp only [parse_cal_doc_line, h1, h2, Option.isNone_some, Bool.false_eq_true,
            if_false, Option.getD_some, Option.getD_none]
          omega
      | some u =>
          have hu := find_digit_rtree_le h2
          simp only [parse_cal_doc_line, h1, h2, Option.isNone_some, Bool.false_eq_true,
            if_false, Option.getD_some]
          omega

/-- C8: trie construction from a fixed vocabulary is deterministic and
idempotent: two tries built from the same (word, value) list are
structurally identical and give identical `find_digit` results on every
input; moreover re-inserting a path that is already present leaves the
trie unchanged. -/
theorem C8_build_deterministic :
    (∀ (vocab : List (List Char × Nat)) (t1 t2 : Node),
      t1 = build_trie vocab → t2 = build_trie vocab →
      t1 = t2 ∧ ∀ cs, find_digit cs t1 = find_digit cs t2) ∧
    (∀ (w : List Char) (v : Nat) (t : Node),
      add_path w v (add_path w v t) = add_path w v t) := by
  constructor
  · rintro vocab t1 t2 rfl rfl
    exact ⟨rfl, fun _ => rfl⟩
  · exact add_path_idem

/-- Witness for C8: two builds of the forward trie coincide and agree on a
concrete scan. -/
theorem C8_build_deterministic_witness :
    get_tree = get_tree ∧
    find_digit ("abc".toList) get_tree = find_digit ("abc".toList) get_tree :=
  ⟨(C8_build_deterministic.1 FIGURES get_tree get_tree rfl rfl).1,
   (C8_build_deterministic.1 FIGURES get_tree get_tree rfl rfl).2 ("abc".toList)⟩

/-- C9: the core is total and panic-free: the `_checked` variants, in which
the two guarded `.unwrap()` sites of the source are modelled as fallible,
always return `some` of the plain result, on every character sequence and
every pair of tries. -/
theorem C9_total_no_panic :
    (∀ (cs : List Char) (t : Node), find_digit_checked cs t = some (find_digit cs t)) ∧
    (∀ (line : List Char) (t rt : Node),
      parse_cal_doc_line_checked line t rt = some (parse_cal_doc_line line t rt)) ∧
    (∀ doc : List Char, parse_cal_doc_checked doc = some (parse_cal_doc doc)) :=
  ⟨find_digit_checked_eq, parse_cal_doc_line_checked_eq, parse_cal_doc_checked_eq⟩

/-- C10: in the tries built from the two fixed vocabularies no direct child
of the root carries a terminal value, and every stored word has length at
least three; hence the unchecked root-child push in `find_digit` can never
skip a completed match. -/
theorem C10_root_children_not_terminal :
    get_tree.children.all (fun p => p.2.leaf.isNone) = true ∧
    get_rtree.children.all (fun p => p.2.leaf.isNone) = true ∧
    (words_of get_tree).all (fun p => 3 ≤ p.1.length) = true ∧
    (words_of get_rtree).all (fun p => 3 ≤ p.1.length) = true := by
  exact ⟨rfl, rfl, rfl, rfl⟩
